import Mathlib

/-!
# TextRenderer: glyph compositing onto a 16-bit raw image

A shallow embedding of `src/TextRenderer.cpp`.

Modelling conventions.

* The program is embedded at two levels.  The functions `drawPixel` ... `drawTextOnImage`
  compute on mathematical integers (`Int`): they describe the executions in which no `int`
  computation overflows and the pen stays within the range of `int`.  The functions
  `drawPixel32` ... `drawTextOnImage32` follow the machine arithmetic of the same source lines:
  `int` and `FT_Int` are 32 bits wide, `FT_Pos` (`long`) is 64 bits wide, a signed `int`
  overflow is undefined behaviour and yields `none`, and the conversions `long -> int` (line 78)
  and `unsigned -> int` (lines 64, 65) reduce modulo 2^32.
* `std::vector<uint16_t>` is a `List Nat`; `operator[]` with an index outside the vector is
  undefined behaviour and is modelled as failure (`none`).
* The FreeType face is a deterministic function from a character to the glyph slot that
  `FT_Load_Char(face, c, FT_LOAD_RENDER)` fills in, or `none` when it returns an error code.
* `advance >> 6` on the signed 26.6 value is the arithmetic shift `Int.shiftRight`, that is
  the floor of the division by 64.
* The file system records, for every path, the bytes a reader obtains, whether the path can be
  opened for writing, and whether what is written there is kept for later reads (a regular
  file) or not (a device such as `/dev/null`, a pipe, a file the process may not read).
-/

namespace TextRenderer

/-! ## Data model -/

/-- The fields of `FT_Bitmap` the program reads.  `buffer k` is the byte stored at signed
offset `k` from the `bitmap.buffer` pointer. -/
structure FT_Bitmap where
  rows : Nat
  width : Nat
  pitch : Int
  buffer : Int → Nat

/-- The fields of the glyph slot (`face->glyph`) the program reads after a successful
`FT_Load_Char`.  `advance_x`, `advance_y` are the 26.6 fixed-point `advance.x`, `advance.y`. -/
structure FT_GlyphSlot where
  bitmap : FT_Bitmap
  bitmap_left : Int
  bitmap_top : Int
  advance_x : Int
  advance_y : Int

/-- The private members of `class TextRenderer` that the drawing code uses.
`face c = none` stands for `FT_Load_Char(face, c, FT_LOAD_RENDER)` returning non-zero. -/
structure Renderer where
  face : Char → Option FT_GlyphSlot
  width : Int
  height : Int

/-! ## `std::vector<uint16_t>` element access -/

/-- Reading `image[i]`, the `int` index converted to `size_t`. -/
def vecGet (image : List Nat) (i : Int) : Option Nat :=
  if 0 ≤ i then image[i.toNat]? else none

/-- The assignment `image[i] = v`. -/
def vecSet (image : List Nat) (i : Int) (v : Nat) : Option (List Nat) :=
  if 0 ≤ i ∧ i.toNat < image.length then some (image.set i.toNat v) else none

/-! ## `calculateTextHeight` (lines 38-49) -/

/-- One iteration of the loop of `calculateTextHeight`. -/
def heightStep (r : Renderer) (max_height : Int) (c : Char) : Int :=
  match r.face c with
  | none => max_height
  | some glyph => if glyph.bitmap_top > max_height then glyph.bitmap_top else max_height

/-- `int calculateTextHeight(const std::string& text)`. -/
def calculateTextHeight (r : Renderer) (text : List Char) : Int :=
  text.foldl (heightStep r) 0

/-! ## `drawTextOnImage` (lines 51-81) -/

/-- The body of the inner loop (lines 66-74). -/
def drawPixel (r : Renderer) (penX penY max_height : Int) (slot : FT_GlyphSlot)
    (row col : Nat) (image : List Nat) : Option (List Nat) :=
  let x : Int := penX + col + slot.bitmap_left
  let y : Int := penY - (max_height - slot.bitmap_top) - row
  let flipped_y : Int := r.height - y - 1
  if x ≥ 0 ∧ x < r.width ∧ flipped_y ≥ 0 ∧ flipped_y < r.height then
    if slot.bitmap.buffer (row * slot.bitmap.pitch + col) ≠ 0 then
      vecSet image (flipped_y * r.width + x) 65535
    else
      (vecGet image (flipped_y * r.width + x)).bind
        (fun v => vecSet image (flipped_y * r.width + x) v)
  else
    some image

/-- The loop over `col` (line 65) for one `row`. -/
def drawRow (r : Renderer) (penX penY max_height : Int) (slot : FT_GlyphSlot)
    (row : Nat) (image : List Nat) : Option (List Nat) :=
  (List.range slot.bitmap.width).foldlM
    (fun img col => drawPixel r penX penY max_height slot row col img) image

/-- The loop over `row` (line 64): blits one glyph bitmap. -/
def drawGlyph (r : Renderer) (penX penY max_height : Int) (slot : FT_GlyphSlot)
    (image : List Nat) : Option (List Nat) :=
  (List.range slot.bitmap.rows).foldlM
    (fun img row => drawRow r penX penY max_height slot row img) image

/-- The loop over the characters of the text (lines 58-80), with the pen as loop state. -/
def drawLoop (r : Renderer) (max_height : Int) :
    List Char → Int → Int → List Nat → Option (List Nat)
  | [], _, _, image => some image
  | c :: cs, penX, penY, image =>
    match r.face c with
    | none => drawLoop r max_height cs penX penY image
    | some slot =>
      (drawGlyph r penX penY max_height slot image).bind
        (drawLoop r max_height cs (penX + Int.shiftRight slot.advance_x 6) (penY + Int.shiftRight slot.advance_y 6))

/-- `void drawTextOnImage(std::vector<uint16_t>& image, const std::string& text,
int startX, int startY)`; the result is the vector after the call. -/
def drawTextOnImage (r : Renderer) (image : List Nat) (text : List Char)
    (startX startY : Int) : Option (List Nat) :=
  drawLoop r (calculateTextHeight r text) text startX startY image

/-! ## `drawTextOnImage` with machine arithmetic (lines 51-81) -/

/-- The value of type `int` congruent to `z` modulo 2^32: the result of converting a `long` or an
`unsigned int` to `int`. -/
def wrap32 (z : Int) : Int := (z + 2147483648) % 4294967296 - 2147483648

/-- The result of an `int` operation whose mathematical value is `z`: the value itself when it is
representable, `none` (signed overflow, undefined behaviour) otherwise. -/
def chk (z : Int) : Option Int :=
  if -2147483648 ≤ z ∧ z ≤ 2147483647 then some z else none

/-- The body of the inner loop (lines 66-74) in `int` arithmetic. -/
def drawPixel32 (r : Renderer) (penX penY max_height : Int) (slot : FT_GlyphSlot)
    (row col : Nat) (image : List Nat) : Option (List Nat) := do
  let a ← chk (penX + col)
  let x ← chk (a + slot.bitmap_left)
  let b ← chk (max_height - slot.bitmap_top)
  let c ← chk (penY - b)
  let y ← chk (c - row)
  let d ← chk (r.height - y)
  let flipped_y ← chk (d - 1)
  if x ≥ 0 ∧ x < r.width ∧ flipped_y ≥ 0 ∧ flipped_y < r.height then
    let e ← chk (flipped_y * r.width)
    let i ← chk (e + x)
    let f ← chk (row * slot.bitmap.pitch)
    let k ← chk (f + col)
    if slot.bitmap.buffer k ≠ 0 then
      vecSet image i 65535
    else
      (vecGet image i).bind (fun v => vecSet image i v)
  else
    some image

/-- The loop over `col` (line 65), bounded by `(int)bitmap.width`. -/
def drawRow32 (r : Renderer) (penX penY max_height : Int) (slot : FT_GlyphSlot)
    (row : Nat) (image : List Nat) : Option (List Nat) :=
  (List.range (wrap32 slot.bitmap.width).toNat).foldlM
    (fun img col => drawPixel32 r penX penY max_height slot row col img) image

/-- The loop over `row` (line 64), bounded by `(int)bitmap.rows`. -/
def drawGlyph32 (r : Renderer) (penX penY max_height : Int) (slot : FT_GlyphSlot)
    (image : List Nat) : Option (List Nat) :=
  (List.range (wrap32 slot.bitmap.rows).toNat).foldlM
    (fun img row => drawRow32 r penX penY max_height slot row img) image

/-- The loop over the characters of the text (lines 58-80).  Lines 78-79 add the `long`
`advance >> 6` to the pen and convert the sum back to `int`; the sum of an `int` and a 64-bit
value shifted right by 6 cannot overflow the `long`. -/
def drawLoop32 (r : Renderer) (max_height : Int) :
    List Char → Int → Int → List Nat → Option (List Nat)
  | [], _, _, image => some image
  | c :: cs, penX, penY, image =>
    match r.face c with
    | none => drawLoop32 r max_height cs penX penY image
    | some slot =>
      (drawGlyph32 r penX penY max_height slot image).bind
        (drawLoop32 r max_height cs (wrap32 (penX + Int.shiftRight slot.advance_x 6))
          (wrap32 (penY + Int.shiftRight slot.advance_y 6)))

/-- `drawTextOnImage` in machine arithmetic; `none` stands for undefined behaviour. -/
def drawTextOnImage32 (r : Renderer) (image : List Nat) (text : List Char)
    (startX startY : Int) : Option (List Nat) :=
  drawLoop32 r (calculateTextHeight r text) text startX startY image

/-! ## Raw image I/O (lines 83-96) -/

/-- The part of the file system the program touches.  `contents p` is the byte sequence a
`std::ifstream` opened on `p` delivers (`none`: it cannot be opened); `writable p` says whether a
`std::ofstream` can be opened on `p`; `retains p` says whether the bytes written through such a
stream become the contents of `p` (a regular file the process can read back) or are lost to
later reads (a device such as `/dev/null`, a pipe, a write-only file). -/
structure Disk where
  contents : String → Option (List Nat)
  writable : String → Bool
  retains : String → Bool

/-- The object representation of one `uint16_t` (low byte first). -/
def pixelBytes (v : Nat) : List Nat := [v % 256, (v / 256) % 256]

/-- The bytes of `image.data()`, `image.size() * sizeof(uint16_t)` of them. -/
def toBytes : List Nat → List Nat
  | [] => []
  | v :: vs => pixelBytes v ++ toBytes vs

/-- The `uint16_t` values stored in a byte sequence of even length. -/
def fromBytes : List Nat → List Nat
  | lo :: hi :: rest => (lo + 256 * hi) :: fromBytes rest
  | _ => []

/-- Outcome of a member function that may throw `std::runtime_error`. -/
inductive Outcome (α : Type) where
  | returned : α → Outcome α
  | threw : String → Outcome α
  deriving DecidableEq

/-- `void saveImage(const std::string& outputPath, const std::vector<uint16_t>& image)`.
The `std::ofstream` is never tested: when it cannot be opened, `write` and `close` do nothing
and the function returns.  When it can be opened the bytes of the vector are written; they
replace the contents of the path only if the path retains what is written to it.  The result is
the outcome and the file system afterwards. -/
def saveImage (fs : Disk) (outputPath : String) (image : List Nat) : Outcome Unit × Disk :=
  if fs.writable outputPath then
    (Outcome.returned (),
      if fs.retains outputPath then
        { fs with
          contents := fun p => if p = outputPath then some (toBytes image) else fs.contents p }
      else fs)
  else
    (Outcome.returned (), fs)

/-- `void loadRawImage(const std::string& filePath, std::vector<uint16_t>& image)`.
`infile.read` stores the bytes it could extract, at most `image.size() * sizeof(uint16_t)`, over
the start of the vector's storage.  The result is the vector after the call. -/
def loadRawImage (fs : Disk) (filePath : String) (image : List Nat) : Outcome (List Nat) :=
  match fs.contents filePath with
  | none => Outcome.threw "Could not open raw image file"
  | some bytes =>
    let got := bytes.take (2 * image.length)
    Outcome.returned (fromBytes (got ++ (toBytes image).drop got.length))

/-! ## The stores issued by `drawTextOnImage`

Control flow in `drawTextOnImage` does not depend on the contents of `image`, so the sequence of
assignments executed at line 73 is a function of the text, the face and the start position.
`drawLoop_eq_exec` below proves that running the loops is the same as executing this sequence
in order. -/

/-- One execution of line 73: `image[index] = coverage ? 65535 : image[index]`. -/
structure Store where
  index : Int
  coverage : Nat

/-- The store issued by the loop body for bitmap pixel `(row, col)`, if the test at line 72
lets it through. -/
def pixelStore (r : Renderer) (penX penY max_height : Int) (slot : FT_GlyphSlot)
    (row col : Nat) : Option Store :=
  let x : Int := penX + col + slot.bitmap_left
  let y : Int := penY - (max_height - slot.bitmap_top) - row
  let flipped_y : Int := r.height - y - 1
  if x ≥ 0 ∧ x < r.width ∧ flipped_y ≥ 0 ∧ flipped_y < r.height then
    some ⟨flipped_y * r.width + x, slot.bitmap.buffer (row * slot.bitmap.pitch + col)⟩
  else
    none

/-- Executing one store on the vector. -/
def execStore (image : List Nat) (s : Store) : Option (List Nat) :=
  if s.coverage ≠ 0 then
    vecSet image s.index 65535
  else
    (vecGet image s.index).bind (fun v => vecSet image s.index v)

/-- The stores issued while blitting one glyph, in execution order. -/
def glyphStores (r : Renderer) (penX penY max_height : Int) (slot : FT_GlyphSlot) : List Store :=
  (List.range slot.bitmap.rows).flatMap
    (fun row => (List.range slot.bitmap.width).filterMap
      (fun col => pixelStore r penX penY max_height slot row col))

/-- The stores issued by the character loop, in execution order. -/
def loopStores (r : Renderer) (max_height : Int) : List Char → Int → Int → List Store
  | [], _, _ => []
  | c :: cs, penX, penY =>
    match r.face c with
    | none => loopStores r max_height cs penX penY
    | some slot =>
      glyphStores r penX penY max_height slot ++
        loopStores r max_height cs (penX + Int.shiftRight slot.advance_x 6) (penY + Int.shiftRight slot.advance_y 6)

/-- The stores issued by `drawTextOnImage`, in execution order. -/
def textStores (r : Renderer) (text : List Char) (startX startY : Int) : List Store :=
  loopStores r (calculateTextHeight r text) text startX startY

/-- The stores issued for a sequence of successfully rasterized glyphs, the pen moving by each
glyph's whole-pixel advance. -/
def listStores (r : Renderer) (max_height : Int) : List FT_GlyphSlot → Int → Int → List Store
  | [], _, _ => []
  | slot :: rest, penX, penY =>
    glyphStores r penX penY max_height slot ++
      listStores r max_height rest (penX + Int.shiftRight slot.advance_x 6)
        (penY + Int.shiftRight slot.advance_y 6)

/-! ## Vocabulary of the specification -/

/-- The glyphs of the characters that rasterize successfully, in text order. -/
def rendered (r : Renderer) (text : List Char) : List FT_GlyphSlot :=
  text.filterMap r.face

/-- The bitmap tops of the characters that rasterize successfully. -/
def tops (r : Renderer) (text : List Char) : List Int :=
  (rendered r text).map (fun g => g.bitmap_top)

/-- Sum of the whole-pixel horizontal advances (`advance.x >> 6`) of a sequence of glyphs. -/
def sumAdvanceX (gs : List FT_GlyphSlot) : Int :=
  (gs.map (fun g => Int.shiftRight g.advance_x 6)).sum

/-- Sum of the whole-pixel vertical advances (`advance.y >> 6`) of a sequence of glyphs. -/
def sumAdvanceY (gs : List FT_GlyphSlot) : Int :=
  (gs.map (fun g => Int.shiftRight g.advance_y 6)).sum

/-- The text with the characters that fail to rasterize removed. -/
def dropFailing (r : Renderer) (text : List Char) : List Char :=
  text.filter (fun c => (r.face c).isSome)

/-- Bitmap pixel `(row, col)` of glyph `g`, drawn with the pen at `(penX, penY)` and maximum
ascent `maxAscent`, has non-zero coverage and is mapped by the flip transform onto the in-bounds
buffer position with flat index `i`. -/
def PixelHits (r : Renderer) (penX penY maxAscent : Int) (g : FT_GlyphSlot)
    (row col : Nat) (i : Nat) : Prop :=
  g.bitmap.buffer (row * g.bitmap.pitch + col) ≠ 0 ∧
  0 ≤ penX + col + g.bitmap_left ∧ penX + col + g.bitmap_left < r.width ∧
  0 ≤ r.height - (penY - (maxAscent - g.bitmap_top) - row) - 1 ∧
  r.height - (penY - (maxAscent - g.bitmap_top) - row) - 1 < r.height ∧
  (i : Int) = (r.height - (penY - (maxAscent - g.bitmap_top) - row) - 1) * r.width
    + (penX + col + g.bitmap_left)

/-- Some covered bitmap pixel of glyph `g` lands in bounds on buffer index `i`. -/
def GlyphHits (r : Renderer) (penX penY maxAscent : Int) (g : FT_GlyphSlot) (i : Nat) : Prop :=
  ∃ row col, row < g.bitmap.rows ∧ col < g.bitmap.width ∧
    PixelHits r penX penY maxAscent g row col i

/-- Some successfully rasterized character of the text, drawn with its pen at the start position
plus the whole-pixel advances of the earlier successfully rasterized characters, has a covered
bitmap pixel that lands in bounds on buffer index `i`. -/
def TextHits (r : Renderer) (text : List Char) (startX startY : Int) (i : Nat) : Prop :=
  ∃ k g, (rendered r text)[k]? = some g ∧
    GlyphHits r (startX + sumAdvanceX ((rendered r text).take k))
      (startY + sumAdvanceY ((rendered r text).take k)) (calculateTextHeight r text) g i

/-- The stores issued for a sequence of successfully rasterized glyphs when the pen is reduced
to an `int` after every advance. -/
def listStores32 (r : Renderer) (max_height : Int) : List FT_GlyphSlot → Int → Int → List Store
  | [], _, _ => []
  | slot :: rest, penX, penY =>
    glyphStores r penX penY max_height slot ++
      listStores32 r max_height rest (wrap32 (penX + Int.shiftRight slot.advance_x 6))
        (wrap32 (penY + Int.shiftRight slot.advance_y 6))

/-- The value `z` is representable in an `int`. -/
def Fits (z : Int) : Prop := -2147483648 ≤ z ∧ z ≤ 2147483647

instance decidableFits (z : Int) : Decidable (Fits z) := by
  unfold Fits
  infer_instance

/-- None of the `int` computations that lines 66-73 perform for bitmap pixel `(row, col)`
overflows: the sums and differences leading to `x`, `y` and `flipped_y` and, when the test of
line 72 passes, the index `flipped_y * width + x` and the offset `row * pitch + col`. -/
def CoordsFit (r : Renderer) (penX penY maxAscent : Int) (g : FT_GlyphSlot)
    (row col : Nat) : Prop :=
  Fits (penX + col) ∧ Fits (penX + col + g.bitmap_left) ∧
  Fits (maxAscent - g.bitmap_top) ∧ Fits (penY - (maxAscent - g.bitmap_top)) ∧
  Fits (penY - (maxAscent - g.bitmap_top) - row) ∧
  Fits (r.height - (penY - (maxAscent - g.bitmap_top) - row)) ∧
  Fits (r.height - (penY - (maxAscent - g.bitmap_top) - row) - 1) ∧
  ((0 ≤ penX + col + g.bitmap_left ∧ penX + col + g.bitmap_left < r.width ∧
      0 ≤ r.height - (penY - (maxAscent - g.bitmap_top) - row) - 1 ∧
      r.height - (penY - (maxAscent - g.bitmap_top) - row) - 1 < r.height) →
    Fits ((r.height - (penY - (maxAscent - g.bitmap_top) - row) - 1) * r.width) ∧
    Fits ((r.height - (penY - (maxAscent - g.bitmap_top) - row) - 1) * r.width
      + (penX + col + g.bitmap_left)) ∧
    Fits (row * g.bitmap.pitch) ∧ Fits (row * g.bitmap.pitch + col))

/-- Blitting glyph `g` with the pen at `(penX, penY)` overflows nowhere: the bitmap dimensions
are representable in an `int` and `CoordsFit` holds for every bitmap pixel. -/
def GlyphFits (r : Renderer) (penX penY maxAscent : Int) (g : FT_GlyphSlot) : Prop :=
  Fits g.bitmap.rows ∧ Fits g.bitmap.width ∧
  ∀ row col, row < g.bitmap.rows → col < g.bitmap.width →
    CoordsFit r penX penY maxAscent g row col

/-- No `int` computation overflows while the text is drawn: `GlyphFits` holds for every
successfully rasterized character at its pen, the pen being the start position plus the
whole-pixel advances of the earlier successfully rasterized characters, reduced to an `int`. -/
def NoOverflow (r : Renderer) (text : List Char) (startX startY : Int) : Prop :=
  ∀ k g, (rendered r text)[k]? = some g →
    GlyphFits r (wrap32 (startX + sumAdvanceX ((rendered r text).take k)))
      (wrap32 (startY + sumAdvanceY ((rendered r text).take k)))
      (calculateTextHeight r text) g

/-- As `TextHits`, with the pen of each character reduced to an `int`: the value congruent
modulo 2^32 to the start position plus the whole-pixel advances (`advance >> 6`, the floor of
`advance / 64`) of the earlier successfully rasterized characters. -/
def TextHits32 (r : Renderer) (text : List Char) (startX startY : Int) (i : Nat) : Prop :=
  ∃ k g, (rendered r text)[k]? = some g ∧
    GlyphHits r (wrap32 (startX + sumAdvanceX ((rendered r text).take k)))
      (wrap32 (startY + sumAdvanceY ((rendered r text).take k)))
      (calculateTextHeight r text) g i

/-! ## Example inputs -/

/-- A 1x2 fully covered glyph with zero bearings and a 2-pixel advance. -/
def glyphBar : FT_GlyphSlot :=
  { bitmap := { rows := 1, width := 2, pitch := 2, buffer := fun _ => 255 },
    bitmap_left := 0, bitmap_top := 0, advance_x := 128, advance_y := 0 }

/-- A 2x1 glyph whose upper pixel is covered and whose lower pixel is empty; its top is one
pixel above the baseline and its advance is 1 pixel and 1/64. -/
def glyphDot : FT_GlyphSlot :=
  { bitmap := { rows := 2, width := 1, pitch := 1, buffer := fun k => if k = 0 then 255 else 0 },
    bitmap_left := 0, bitmap_top := 1, advance_x := 65, advance_y := 0 }

/-- A 1x1 covered glyph lying entirely below the baseline, as an underscore does. -/
def glyphUnder : FT_GlyphSlot :=
  { bitmap := { rows := 1, width := 1, pitch := 1, buffer := fun _ => 255 },
    bitmap_left := 0, bitmap_top := -2, advance_x := 64, advance_y := 0 }

/-- A face with three glyphs; every other character fails to load. -/
def faceDemo : Char → Option FT_GlyphSlot := fun c =>
  if c = 'a' then some glyphBar
  else if c = 'b' then some glyphDot
  else if c = '_' then some glyphUnder
  else none

/-- A renderer for a 2x2 image. -/
def demo2 : Renderer := { face := faceDemo, width := 2, height := 2 }

/-- A file system in which `output.raw` exists with two bytes but cannot be opened for
writing. -/
def diskReadOnly : Disk :=
  { contents := fun p => if p = "output.raw" then some [5, 0] else none,
    writable := fun _ => false,
    retains := fun _ => true }

/-- A file system with no files in which every path can be created as a regular file. -/
def diskEmpty : Disk :=
  { contents := fun _ => none, writable := fun _ => true, retains := fun _ => true }

/-- A file system whose only path is the null device: it can be opened for writing and for
reading, discards what is written and delivers no bytes. -/
def diskNull : Disk :=
  { contents := fun p => if p = "/dev/null" then some [] else none,
    writable := fun p => p = "/dev/null",
    retains := fun _ => false }

/-- A 1x1 covered glyph with zero bearings whose horizontal advance is 2^32 + 1 pixels
(`advance.x = 2^38 + 64`, a value of the 64-bit `FT_Pos`). -/
def glyphWide : FT_GlyphSlot :=
  { bitmap := { rows := 1, width := 1, pitch := 1, buffer := fun _ => 255 },
    bitmap_left := 0, bitmap_top := 0, advance_x := 274877907008, advance_y := 0 }

/-- A face with the glyphs `w` (`glyphWide`) and `a` (`glyphBar`). -/
def faceWide : Char → Option FT_GlyphSlot := fun c =>
  if c = 'w' then some glyphWide
  else if c = 'a' then some glyphBar
  else none

/-- A renderer for a 2x2 image with the face `faceWide`. -/
def demoWide : Renderer := { face := faceWide, width := 2, height := 2 }

/-- A renderer for a 50000x50000 image. -/
def demoBig : Renderer := { face := faceDemo, width := 50000, height := 50000 }

theorem foldlM_filterMap_option {α β γ : Type} (f : α → Option β) (g : γ → β → Option γ)
    (l : List α) (init : γ) :
    (l.filterMap f).foldlM g init =
      l.foldlM (fun acc a => match f a with
        | none => some acc
        | some b => g acc b) init := by
  induction l generalizing init with
  | nil => rfl
  | cons a l ih =>
    cases h : f a with
    | none =>
      rw [List.filterMap_cons_none h, List.foldlM_cons]
      simp only [h]
      exact ih init
    | some b =>
      rw [List.filterMap_cons_some h, List.foldlM_cons, List.foldlM_cons]
      simp only [h]
      cases g init b with
      | none => rfl
      | some v => exact ih v

theorem foldlM_flatMap_option {α β γ : Type} (f : α → List β) (g : γ → β → Option γ)
    (l : List α) (init : γ) :
    (l.flatMap f).foldlM g init = l.foldlM (fun acc a => (f a).foldlM g acc) init := by
  induction l generalizing init with
  | nil => rfl
  | cons a l ih =>
    rw [List.flatMap_cons, List.foldlM_append, List.foldlM_cons]
    cases (f a).foldlM g init with
    | none => rfl
    | some v => exact ih v

theorem drawPixel_eq_exec (r : Renderer) (penX penY max_height : Int) (slot : FT_GlyphSlot)
    (row col : Nat) (image : List Nat) :
    drawPixel r penX penY max_height slot row col image =
      match pixelStore r penX penY max_height slot row col with
      | none => some image
      | some s => execStore image s := by
  unfold drawPixel pixelStore execStore
  by_cases h : penX + col + slot.bitmap_left ≥ 0 ∧ penX + col + slot.bitmap_left < r.width ∧
      r.height - (penY - (max_height - slot.bitmap_top) - row) - 1 ≥ 0 ∧
      r.height - (penY - (max_height - slot.bitmap_top) - row) - 1 < r.height
  · simp only [h, and_self, if_true]
  · simp only [h, if_false]

theorem drawRow_eq_exec (r : Renderer) (penX penY max_height : Int) (slot : FT_GlyphSlot)
    (row : Nat) (image : List Nat) :
    drawRow r penX penY max_height slot row image =
      ((List.range slot.bitmap.width).filterMap
        (fun col => pixelStore r penX penY max_height slot row col)).foldlM execStore image := by
  unfold drawRow
  rw [foldlM_filterMap_option]
  congr 1
  funext img col
  rw [drawPixel_eq_exec]
  cases pixelStore r penX penY max_height slot row col <;> rfl

theorem drawGlyph_eq_exec (r : Renderer) (penX penY max_height : Int) (slot : FT_GlyphSlot)
    (image : List Nat) :
    drawGlyph r penX penY max_height slot image =
      (glyphStores r penX penY max_height slot).foldlM execStore image := by
  unfold drawGlyph glyphStores
  rw [foldlM_flatMap_option]
  congr 1
  funext img row
  exact drawRow_eq_exec r penX penY max_height slot row img

theorem drawLoop_eq_exec (r : Renderer) (max_height : Int) (text : List Char)
    (penX penY : Int) (image : List Nat) :
    drawLoop r max_height text penX penY image =
      (loopStores r max_height text penX penY).foldlM execStore image := by
  induction text generalizing penX penY image with
  | nil => rfl
  | cons c cs ih =>
    unfold drawLoop loopStores
    cases h : r.face c with
    | none => exact ih penX penY image
    | some slot =>
      simp only []
      rw [List.foldlM_append, drawGlyph_eq_exec]
      cases (glyphStores r penX penY max_height slot).foldlM execStore image with
      | none => rfl
      | some v => exact ih _ _ v

theorem drawTextOnImage_eq_exec (r : Renderer) (image : List Nat) (text : List Char)
    (startX startY : Int) :
    drawTextOnImage r image text startX startY =
      (textStores r text startX startY).foldlM execStore image :=
  drawLoop_eq_exec r _ text startX startY image


/-! ## What executing a sequence of in-range stores does -/

theorem set_getElem_same (l : List Nat) (n : Nat) (h : n < l.length) : l.set n l[n] = l := by
  apply List.ext_getElem?
  intro j
  rw [List.getElem?_set]
  by_cases hj : n = j
  · subst hj
    simp [h]
  · simp [hj]

theorem execStore_inRange (image : List Nat) (s : Store) (h0 : 0 ≤ s.index)
    (h1 : s.index < image.length) :
    execStore image s =
      some (if s.coverage ≠ 0 then image.set s.index.toNat 65535 else image) := by
  have hn : s.index.toNat < image.length := by omega
  unfold execStore vecSet vecGet
  by_cases hc : s.coverage ≠ 0
  · simp [hc, h0, hn]
  · simp only [hc, if_false, h0, if_true, hn, and_self]
    rw [List.getElem?_eq_getElem hn]
    simp only [Option.bind]
    rw [set_getElem_same]

theorem exec_spec (stores : List Store) (image : List Nat)
    (h : ∀ s ∈ stores, 0 ≤ s.index ∧ s.index < image.length) :
    ∃ image', stores.foldlM execStore image = some image' ∧ image'.length = image.length ∧
      (∀ i : Nat, (∃ s ∈ stores, s.coverage ≠ 0 ∧ s.index = (i : Int)) →
        i < image.length ∧ image'[i]? = some 65535) ∧
      (∀ i : Nat, (¬ ∃ s ∈ stores, s.coverage ≠ 0 ∧ s.index = (i : Int)) →
        image'[i]? = image[i]?) := by
  induction stores generalizing image with
  | nil =>
    exact ⟨image, rfl, rfl, fun i hi => by simp at hi, fun i _ => rfl⟩
  | cons s rest ih =>
    obtain ⟨h0, h1⟩ := h s (List.mem_cons_self _ _)
    have hn : s.index.toNat < image.length := by omega
    have hlen1 : (if s.coverage ≠ 0 then image.set s.index.toNat 65535 else image).length
        = image.length := by
      split <;> simp
    obtain ⟨image', hrun, hlen, hhit, hmiss⟩ :=
      ih (if s.coverage ≠ 0 then image.set s.index.toNat 65535 else image) (by
        intro t ht
        rw [hlen1]
        exact h t (List.mem_cons_of_mem _ ht))
    refine ⟨image', ?_, by rw [hlen, hlen1], ?_, ?_⟩
    · rw [List.foldlM_cons, execStore_inRange image s h0 h1]
      exact hrun
    · rintro i ⟨t, ht, htc, hti⟩
      have hi : i < image.length := by
        have := (h t ht).2
        omega
      refine ⟨hi, ?_⟩
      by_cases hrest : ∃ t ∈ rest, t.coverage ≠ 0 ∧ t.index = (i : Int)
      · exact (hhit i hrest).2
      · rw [hmiss i hrest]
        rcases List.mem_cons.mp ht with rfl | ht'
        · have : t.index.toNat = i := by omega
          simp only [htc, ne_eq, not_false_eq_true, if_true, this]
          exact List.getElem?_set_self hi
        · exact absurd ⟨t, ht', htc, hti⟩ hrest
    · intro i hno
      have hrest : ¬ ∃ t ∈ rest, t.coverage ≠ 0 ∧ t.index = (i : Int) := by
        rintro ⟨t, ht, htc, hti⟩
        exact hno ⟨t, List.mem_cons_of_mem _ ht, htc, hti⟩
      rw [hmiss i hrest]
      by_cases hc : s.coverage ≠ 0
      · have hne : s.index.toNat ≠ i := by
          intro heq
          apply hno
          exact ⟨s, List.mem_cons_self _ _, hc, by omega⟩
        simp only [hc, ne_eq, not_false_eq_true, if_true]
        exact List.getElem?_set_ne hne
      · simp only [hc, if_false]

/-! ## Which stores are issued -/

theorem pixelStore_eq_some (r : Renderer) (penX penY mh : Int) (g : FT_GlyphSlot)
    (row col : Nat) (s : Store) :
    pixelStore r penX penY mh g row col = some s ↔
      (0 ≤ penX + col + g.bitmap_left ∧ penX + col + g.bitmap_left < r.width ∧
        0 ≤ r.height - (penY - (mh - g.bitmap_top) - row) - 1 ∧
        r.height - (penY - (mh - g.bitmap_top) - row) - 1 < r.height) ∧
      s = ⟨(r.height - (penY - (mh - g.bitmap_top) - row) - 1) * r.width
            + (penX + col + g.bitmap_left),
          g.bitmap.buffer (row * g.bitmap.pitch + col)⟩ := by
  unfold pixelStore
  simp only [ge_iff_le]
  split
  · rename_i h
    simp only [Option.some.injEq, h, and_self, true_and]
    exact eq_comm
  · rename_i h
    constructor
    · intro hc
      cases hc
    · rintro ⟨hg, _⟩
      exact absurd hg h

theorem index_inRange (w h x fy : Int) (hx0 : 0 ≤ x) (hx1 : x < w) (hy0 : 0 ≤ fy)
    (hy1 : fy < h) : 0 ≤ fy * w + x ∧ fy * w + x < w * h := by
  have hw : 0 ≤ w := by omega
  constructor
  · have := mul_nonneg hy0 hw
    omega
  · have h1 : fy * w ≤ (h - 1) * w := mul_le_mul_of_nonneg_right (by omega) hw
    have h2 : (h - 1) * w = w * h - w := by ring
    omega

theorem mem_glyphStores (r : Renderer) (penX penY mh : Int) (g : FT_GlyphSlot) (s : Store) :
    s ∈ glyphStores r penX penY mh g ↔
      ∃ row col, row < g.bitmap.rows ∧ col < g.bitmap.width ∧
        pixelStore r penX penY mh g row col = some s := by
  unfold glyphStores
  simp only [List.mem_flatMap, List.mem_filterMap, List.mem_range]
  constructor
  · rintro ⟨row, hrow, col, hcol, hs⟩
    exact ⟨row, col, hrow, hcol, hs⟩
  · rintro ⟨row, col, hrow, hcol, hs⟩
    exact ⟨row, hrow, col, hcol, hs⟩

theorem glyphStores_inRange (r : Renderer) (penX penY mh : Int) (g : FT_GlyphSlot) (s : Store)
    (hs : s ∈ glyphStores r penX penY mh g) :
    0 ≤ s.index ∧ s.index < r.width * r.height := by
  obtain ⟨row, col, _, _, hp⟩ := (mem_glyphStores r penX penY mh g s).mp hs
  obtain ⟨⟨a, b, c, d⟩, rfl⟩ := (pixelStore_eq_some r penX penY mh g row col s).mp hp
  exact index_inRange _ _ _ _ a b c d

theorem glyphStores_hits (r : Renderer) (penX penY mh : Int) (g : FT_GlyphSlot) (i : Nat) :
    (∃ s ∈ glyphStores r penX penY mh g, s.coverage ≠ 0 ∧ s.index = (i : Int)) ↔
      GlyphHits r penX penY mh g i := by
  unfold GlyphHits PixelHits
  constructor
  · rintro ⟨s, hs, hc, hi⟩
    obtain ⟨row, col, hrow, hcol, hp⟩ := (mem_glyphStores r penX penY mh g s).mp hs
    obtain ⟨⟨a, b, c, d⟩, rfl⟩ := (pixelStore_eq_some r penX penY mh g row col s).mp hp
    exact ⟨row, col, hrow, hcol, hc, a, b, c, d, hi.symm⟩
  · rintro ⟨row, col, hrow, hcol, hc, a, b, c, d, hi⟩
    refine ⟨_, (mem_glyphStores r penX penY mh g _).mpr
      ⟨row, col, hrow, hcol, (pixelStore_eq_some r penX penY mh g row col _).mpr
        ⟨⟨a, b, c, d⟩, rfl⟩⟩, hc, hi.symm⟩

theorem loopStores_eq_listStores (r : Renderer) (mh : Int) (text : List Char) (penX penY : Int) :
    loopStores r mh text penX penY = listStores r mh (rendered r text) penX penY := by
  induction text generalizing penX penY with
  | nil => rfl
  | cons c cs ih =>
    unfold loopStores rendered
    cases h : r.face c with
    | none =>
      rw [List.filterMap_cons_none h]
      exact ih penX penY
    | some slot =>
      rw [List.filterMap_cons_some h]
      simp only [listStores]
      rw [ih]
      rfl

theorem mem_listStores (r : Renderer) (mh : Int) (gs : List FT_GlyphSlot) (penX penY : Int)
    (s : Store) :
    s ∈ listStores r mh gs penX penY ↔
      ∃ k g, gs[k]? = some g ∧
        s ∈ glyphStores r (penX + sumAdvanceX (gs.take k)) (penY + sumAdvanceY (gs.take k))
          mh g := by
  induction gs generalizing penX penY with
  | nil => simp [listStores]
  | cons g0 rest ih =>
    simp only [listStores, List.mem_append, ih]
    constructor
    · rintro (h | ⟨k, g, hk, hs⟩)
      · refine ⟨0, g0, List.getElem?_cons_zero, ?_⟩
        simpa [sumAdvanceX, sumAdvanceY] using h
      · refine ⟨k + 1, g, by simpa using hk, ?_⟩
        simpa [sumAdvanceX, sumAdvanceY, add_assoc] using hs
    · rintro ⟨k, g, hk, hs⟩
      cases k with
      | zero =>
        left
        simp only [List.getElem?_cons_zero, Option.some.injEq] at hk
        subst hk
        simpa [sumAdvanceX, sumAdvanceY] using hs
      | succ k =>
        right
        refine ⟨k, g, by simpa using hk, ?_⟩
        simpa [sumAdvanceX, sumAdvanceY, add_assoc] using hs

theorem textStores_hits (r : Renderer) (text : List Char) (startX startY : Int) (i : Nat) :
    (∃ s ∈ textStores r text startX startY, s.coverage ≠ 0 ∧ s.index = (i : Int)) ↔
      TextHits r text startX startY i := by
  unfold textStores TextHits
  rw [loopStores_eq_listStores]
  constructor
  · rintro ⟨s, hs, hc, hi⟩
    obtain ⟨k, g, hk, hg⟩ := (mem_listStores _ _ _ _ _ s).mp hs
    exact ⟨k, g, hk, (glyphStores_hits _ _ _ _ g i).mp ⟨s, hg, hc, hi⟩⟩
  · rintro ⟨k, g, hk, hg⟩
    obtain ⟨s, hs, hc, hi⟩ := (glyphStores_hits _ _ _ _ g i).mpr hg
    exact ⟨s, (mem_listStores _ _ _ _ _ s).mpr ⟨k, g, hk, hs⟩, hc, hi⟩

theorem textStores_inRange (r : Renderer) (text : List Char) (startX startY : Int) (s : Store)
    (hs : s ∈ textStores r text startX startY) :
    0 ≤ s.index ∧ s.index < r.width * r.height := by
  unfold textStores at hs
  rw [loopStores_eq_listStores] at hs
  obtain ⟨k, g, _, hg⟩ := (mem_listStores _ _ _ _ _ s).mp hs
  exact glyphStores_inRange _ _ _ _ g s hg

/-- The workhorse: on a buffer of `width * height` elements the call returns, keeps the length,
sets every hit index to 65535 and leaves every other element alone. -/
theorem draw_spec (r : Renderer) (image : List Nat) (text : List Char) (startX startY : Int)
    (hlen : (image.length : Int) = r.width * r.height) :
    ∃ image', drawTextOnImage r image text startX startY = some image' ∧
      image'.length = image.length ∧
      (∀ i : Nat, TextHits r text startX startY i →
        i < image.length ∧ image'[i]? = some 65535) ∧
      (∀ i : Nat, ¬ TextHits r text startX startY i → image'[i]? = image[i]?) := by
  obtain ⟨image', hrun, hl, hhit, hmiss⟩ :=
    exec_spec (textStores r text startX startY) image (by
      intro s hs
      rw [hlen]
      exact textStores_inRange r text startX startY s hs)
  refine ⟨image', ?_, hl, ?_, ?_⟩
  · rw [drawTextOnImage_eq_exec]
    exact hrun
  · intro i hi
    exact hhit i ((textStores_hits r text startX startY i).mpr hi)
  · intro i hi
    exact hmiss i (fun h => hi ((textStores_hits r text startX startY i).mp h))

/-! ## `calculateTextHeight` -/

theorem height_foldl_eq (r : Renderer) (text : List Char) (a : Int) :
    text.foldl (heightStep r) a = (tops r text).foldl max a := by
  induction text generalizing a with
  | nil => rfl
  | cons c cs ih =>
    rw [List.foldl_cons, ih]
    unfold tops rendered heightStep
    cases h : r.face c with
    | none => rw [List.filterMap_cons_none h]
    | some g =>
      rw [List.filterMap_cons_some h, List.map_cons, List.foldl_cons]
      congr 1
      simp only []
      split
      · rw [max_eq_right]; omega
      · rw [max_eq_left]; omega

theorem foldl_max_ge (l : List Int) (a : Int) : a ≤ l.foldl max a := by
  induction l generalizing a with
  | nil => exact le_refl a
  | cons t ts ih => exact le_trans (le_max_left a t) (ih (max a t))

theorem foldl_max_upper (l : List Int) (a : Int) : ∀ t ∈ l, t ≤ l.foldl max a := by
  induction l generalizing a with
  | nil => intro t ht; cases ht
  | cons u us ih =>
    intro t ht
    rcases List.mem_cons.mp ht with rfl | h
    · exact le_trans (le_max_right a t) (foldl_max_ge us (max a t))
    · exact ih (max a u) t h

theorem foldl_max_attained (l : List Int) (a : Int) : l.foldl max a = a ∨ l.foldl max a ∈ l := by
  induction l generalizing a with
  | nil => exact Or.inl rfl
  | cons u us ih =>
    rw [List.foldl_cons]
    rcases ih (max a u) with h | h
    · rcases max_choice a u with hm | hm
      · left; rw [h, hm]
      · right; rw [h, hm]; exact List.mem_cons_self _ _
    · right; exact List.mem_cons_of_mem _ h

theorem height_filter (r : Renderer) (text : List Char) :
    tops r (dropFailing r text) = tops r text := by
  unfold tops rendered dropFailing
  congr 1
  induction text with
  | nil => rfl
  | cons c cs ih =>
    cases h : r.face c with
    | none =>
      rw [List.filterMap_cons_none h, List.filter_cons_of_neg (by simp [h])]
      exact ih
    | some g =>
      rw [List.filterMap_cons_some h, List.filter_cons_of_pos (by simp [h]),
        List.filterMap_cons_some h, ih]

/-! ## Failing characters -/

theorem drawLoop_filter (r : Renderer) (mh : Int) (text : List Char) (penX penY : Int)
    (image : List Nat) :
    drawLoop r mh (dropFailing r text) penX penY image = drawLoop r mh text penX penY image := by
  induction text generalizing penX penY image with
  | nil => rfl
  | cons c cs ih =>
    unfold dropFailing at ih ⊢
    cases h : r.face c with
    | none =>
      rw [List.filter_cons_of_neg (by simp [h])]
      conv_rhs => unfold drawLoop
      simp only [h]
      exact ih penX penY image
    | some g =>
      rw [List.filter_cons_of_pos (by simp [h])]
      unfold drawLoop
      simp only [h]
      cases drawGlyph r penX penY mh g image with
      | none => rfl
      | some v => exact ih _ _ v

/-! ## Claims about `calculateTextHeight` and about skipped characters -/

/-- C7: drawing the empty text returns the buffer unchanged, element for element and in
length, for every buffer, every image width and height and every start position. -/
theorem drawTextOnImage_empty (r : Renderer) (image : List Nat) (startX startY : Int) :
    drawTextOnImage r image [] startX startY = some image := rfl

/-- C9: characters that fail to rasterize have no effect: drawing a text gives the same result
as drawing the text with the failing characters removed, and `calculateTextHeight` agrees on the
two texts. -/
theorem failing_characters_skipped (r : Renderer) (image : List Nat) (text : List Char)
    (startX startY : Int) :
    drawTextOnImage r image text startX startY =
        drawTextOnImage r image (dropFailing r text) startX startY ∧
      calculateTextHeight r text = calculateTextHeight r (dropFailing r text) := by
  have hh : calculateTextHeight r text = calculateTextHeight r (dropFailing r text) := by
    unfold calculateTextHeight
    rw [height_foldl_eq, height_foldl_eq, height_filter]
  refine ⟨?_, hh⟩
  unfold drawTextOnImage
  rw [← hh, drawLoop_filter]

/-- C4 as stated fails: the text `_`, whose only glyph has `bitmap_top = -2`, rasterizes
successfully, yet `calculateTextHeight` returns 0, which is not the `bitmap_top` of any
rasterized character and so is not their maximum. -/
theorem calculateTextHeight_not_max_top :
    tops demo2 ['_'] = [-2] ∧ calculateTextHeight demo2 ['_'] = 0 ∧
      calculateTextHeight demo2 ['_'] ∉ tops demo2 ['_'] := by
  decide

/-- C4 amended: `calculateTextHeight` returns the largest of 0 and the `bitmap_top` values of
the characters that rasterize successfully: it is non-negative, bounds every such `bitmap_top`,
and is 0 or one of them.  Hence it is 0 when no character rasterizes, and it is the maximum
`bitmap_top` as soon as one rasterized character has a non-negative `bitmap_top`. -/
theorem calculateTextHeight_spec (r : Renderer) (text : List Char) :
    0 ≤ calculateTextHeight r text ∧
      (∀ t ∈ tops r text, t ≤ calculateTextHeight r text) ∧
      (calculateTextHeight r text = 0 ∨ calculateTextHeight r text ∈ tops r text) ∧
      (tops r text = [] → calculateTextHeight r text = 0) ∧
      ((∃ t ∈ tops r text, 0 ≤ t) → calculateTextHeight r text ∈ tops r text) := by
  have heq : calculateTextHeight r text = (tops r text).foldl max 0 := height_foldl_eq r text 0
  have h0 : 0 ≤ calculateTextHeight r text := heq ▸ foldl_max_ge _ 0
  have hub : ∀ t ∈ tops r text, t ≤ calculateTextHeight r text := heq ▸ foldl_max_upper _ 0
  have hat : calculateTextHeight r text = 0 ∨ calculateTextHeight r text ∈ tops r text :=
    heq ▸ foldl_max_attained _ 0
  refine ⟨h0, hub, hat, ?_, ?_⟩
  · intro hnil
    rw [heq, hnil]
    rfl
  · rintro ⟨t, ht, ht0⟩
    rcases hat with hz | hm
    · have : t = 0 := le_antisymm (hz ▸ hub t ht) ht0
      rw [hz, ← this]
      exact ht
    · exact hm

/-! ## Auxiliary facts for the drawing claims -/

theorem toBytes_length (b : List Nat) : (toBytes b).length = 2 * b.length := by
  induction b with
  | nil => rfl
  | cons v vs ih =>
    simp only [toBytes, pixelBytes, List.length_append, List.length_cons, List.length_nil, ih]
    omega

theorem fromBytes_toBytes (b : List Nat) (h16 : ∀ v ∈ b, v < 65536) :
    fromBytes (toBytes b) = b := by
  induction b with
  | nil => rfl
  | cons v vs ih =>
    have hv : v < 65536 := h16 v (List.mem_cons_self _ _)
    have hrest : fromBytes (toBytes vs) = vs := ih (fun u hu => h16 u (List.mem_cons_of_mem _ hu))
    simp only [toBytes, pixelBytes, List.cons_append, List.nil_append, fromBytes, hrest]
    congr 1
    omega

theorem saveImage_always_returns (fs : Disk) (path : String) (image : List Nat) :
    (saveImage fs path image).1 = Outcome.returned () := by
  unfold saveImage
  split <;> rfl

/-- C5 as stated fails: the null device can be opened for writing and for reading, `saveImage`
writes the buffer `[1]` to it and returns, and `loadRawImage` from the same path into a fresh
buffer `[0]` returns with the buffer still `[0]`, not `[1]`. -/
theorem roundtrip_fails_on_null_device :
    diskNull.writable "/dev/null" = true ∧
      (saveImage diskNull "/dev/null" [1]).1 = Outcome.returned () ∧
      loadRawImage (saveImage diskNull "/dev/null" [1]).2 "/dev/null" [0] =
        Outcome.returned [0] ∧
      loadRawImage (saveImage diskNull "/dev/null" [1]).2 "/dev/null" [0] ≠
        Outcome.returned [1] := by
  decide

/-- C5 amended: when the path can be opened for writing and retains what is written to it for
later reads (a regular file the process can read back), `saveImage path b` of a buffer of 16-bit
values followed by `loadRawImage path fresh` into a buffer of the same length returns and leaves
`fresh` equal to `b`. -/
theorem save_load_roundtrip (fs : Disk) (path : String) (b fresh : List Nat)
    (hw : fs.writable path = true) (hr : fs.retains path = true) (h16 : ∀ v ∈ b, v < 65536)
    (hlen : fresh.length = b.length) :
    (saveImage fs path b).1 = Outcome.returned () ∧
      loadRawImage (saveImage fs path b).2 path fresh = Outcome.returned b := by
  refine ⟨saveImage_always_returns fs path b, ?_⟩
  unfold saveImage loadRawImage
  simp only [hw, hr, if_true]
  have htake : (toBytes b).take (2 * fresh.length) = toBytes b := by
    apply List.take_of_length_le
    rw [toBytes_length, hlen]
  have hdrop : (toBytes fresh).drop (toBytes b).length = [] := by
    apply List.drop_of_length_le
    rw [toBytes_length, toBytes_length, hlen]
  rw [htake, hdrop, List.append_nil, fromBytes_toBytes b h16]

/-- Witness for amended C5: two values written to a creatable regular file and read back. -/
theorem save_load_roundtrip_witness :
    (saveImage diskEmpty "output.raw" [1, 65535]).1 = Outcome.returned () ∧
      loadRawImage (saveImage diskEmpty "output.raw" [1, 65535]).2 "output.raw" [0, 0] =
        Outcome.returned [1, 65535] :=
  save_load_roundtrip diskEmpty "output.raw" [1, 65535] [0, 0] rfl rfl (by decide) rfl

/-- C6 at a failing input: `output.raw` cannot be opened for writing, and `saveImage` returns
normally, reporting nothing and leaving the old file contents in place. -/
theorem saveImage_silent_on_unwritable_path :
    diskReadOnly.writable "output.raw" = false ∧
      (saveImage diskReadOnly "output.raw" [1]).1 = Outcome.returned () ∧
      (saveImage diskReadOnly "output.raw" [1]).2.contents "output.raw" = some [5, 0] := by
  decide

/-! ## Machine arithmetic: agreement with the integer-level loops where nothing overflows -/

theorem chk_of_fits (z : Int) (h : Fits z) : chk z = some z := by
  unfold chk
  exact if_pos h

theorem wrap32_of_fits (z : Int) (h : Fits z) : wrap32 z = z := by
  unfold Fits at h
  unfold wrap32
  omega

theorem wrap32_fits (z : Int) : Fits (wrap32 z) := by
  unfold Fits wrap32
  omega

theorem wrap32_add (a b : Int) : wrap32 (wrap32 a + b) = wrap32 (a + b) := by
  unfold wrap32
  omega

theorem foldlM_congr_mem {α β : Type} (f g : β → α → Option β) (l : List α) (init : β)
    (h : ∀ a ∈ l, ∀ acc, f acc a = g acc a) : l.foldlM f init = l.foldlM g init := by
  induction l generalizing init with
  | nil => rfl
  | cons a l ih =>
    rw [List.foldlM_cons, List.foldlM_cons, h a (List.mem_cons_self _ _) init]
    cases g init a with
    | none => rfl
    | some v => exact ih v (fun x hx acc => h x (List.mem_cons_of_mem _ hx) acc)

theorem drawPixel32_eq (r : Renderer) (penX penY mh : Int) (g : FT_GlyphSlot) (row col : Nat)
    (image : List Nat) (hfit : CoordsFit r penX penY mh g row col) :
    drawPixel32 r penX penY mh g row col image = drawPixel r penX penY mh g row col image := by
  obtain ⟨h1, h2, h3, h4, h5, h6, h7, h8⟩ := hfit
  unfold drawPixel32 drawPixel
  simp only [Option.bind_eq_bind, chk_of_fits _ h1, chk_of_fits _ h2, chk_of_fits _ h3,
    chk_of_fits _ h4, chk_of_fits _ h5, chk_of_fits _ h6, chk_of_fits _ h7, Option.some_bind]
  by_cases hg : penX + col + g.bitmap_left ≥ 0 ∧ penX + col + g.bitmap_left < r.width ∧
      r.height - (penY - (mh - g.bitmap_top) - row) - 1 ≥ 0 ∧
      r.height - (penY - (mh - g.bitmap_top) - row) - 1 < r.height
  · obtain ⟨k1, k2, k3, k4⟩ := h8 hg
    simp only [hg, and_self, if_true, chk_of_fits _ k1, chk_of_fits _ k2, chk_of_fits _ k3,
      chk_of_fits _ k4, Option.some_bind]
  · simp only [hg, if_false]

theorem drawGlyph32_eq (r : Renderer) (penX penY mh : Int) (g : FT_GlyphSlot)
    (image : List Nat) (hfit : GlyphFits r penX penY mh g) :
    drawGlyph32 r penX penY mh g image = drawGlyph r penX penY mh g image := by
  obtain ⟨hrows, hwidth, hall⟩ := hfit
  have hr : (wrap32 g.bitmap.rows).toNat = g.bitmap.rows := by
    rw [wrap32_of_fits _ hrows]
    exact Int.toNat_natCast _
  have hw : (wrap32 g.bitmap.width).toNat = g.bitmap.width := by
    rw [wrap32_of_fits _ hwidth]
    exact Int.toNat_natCast _
  unfold drawGlyph32 drawGlyph
  rw [hr]
  apply foldlM_congr_mem
  intro row hrow img
  unfold drawRow32 drawRow
  rw [hw]
  apply foldlM_congr_mem
  intro col hcol img2
  exact drawPixel32_eq r penX penY mh g row col img2
    (hall row col (List.mem_range.mp hrow) (List.mem_range.mp hcol))

theorem drawLoop32_cons_none (r : Renderer) (mh : Int) (c : Char) (cs : List Char)
    (penX penY : Int) (image : List Nat) (h : r.face c = none) :
    drawLoop32 r mh (c :: cs) penX penY image = drawLoop32 r mh cs penX penY image := by
  rw [drawLoop32]
  simp only [h]

theorem drawLoop32_cons_some (r : Renderer) (mh : Int) (c : Char) (cs : List Char)
    (penX penY : Int) (image : List Nat) (g : FT_GlyphSlot) (h : r.face c = some g) :
    drawLoop32 r mh (c :: cs) penX penY image =
      (drawGlyph32 r penX penY mh g image).bind
        (drawLoop32 r mh cs (wrap32 (penX + Int.shiftRight g.advance_x 6))
          (wrap32 (penY + Int.shiftRight g.advance_y 6))) := by
  rw [drawLoop32]
  simp only [h]

theorem sumAdvanceX_cons (g : FT_GlyphSlot) (gs : List FT_GlyphSlot) :
    sumAdvanceX (g :: gs) = Int.shiftRight g.advance_x 6 + sumAdvanceX gs := by
  simp [sumAdvanceX]

theorem sumAdvanceY_cons (g : FT_GlyphSlot) (gs : List FT_GlyphSlot) :
    sumAdvanceY (g :: gs) = Int.shiftRight g.advance_y 6 + sumAdvanceY gs := by
  simp [sumAdvanceY]

theorem drawLoop32_eq_exec (r : Renderer) (mh : Int) (text : List Char) (penX penY : Int)
    (image : List Nat) (hx : Fits penX) (hy : Fits penY)
    (hfit : ∀ k g, (rendered r text)[k]? = some g →
      GlyphFits r (wrap32 (penX + sumAdvanceX ((rendered r text).take k)))
        (wrap32 (penY + sumAdvanceY ((rendered r text).take k))) mh g) :
    drawLoop32 r mh text penX penY image =
      (listStores32 r mh (rendered r text) penX penY).foldlM execStore image := by
  induction text generalizing penX penY image with
  | nil => rfl
  | cons c cs ih =>
    cases h : r.face c with
    | none =>
      have hr : rendered r (c :: cs) = rendered r cs := List.filterMap_cons_none h
      rw [drawLoop32_cons_none r mh c cs penX penY image h, hr]
      rw [hr] at hfit
      exact ih penX penY image hx hy hfit
    | some g =>
      have hr : rendered r (c :: cs) = g :: rendered r cs := List.filterMap_cons_some h
      rw [drawLoop32_cons_some r mh c cs penX penY image g h, hr]
      rw [hr] at hfit
      have h0 : GlyphFits r penX penY mh g := by
        have := hfit 0 g List.getElem?_cons_zero
        simpa [sumAdvanceX, sumAdvanceY, wrap32_of_fits _ hx, wrap32_of_fits _ hy] using this
      rw [drawGlyph32_eq r penX penY mh g image h0, drawGlyph_eq_exec]
      simp only [listStores32]
      rw [List.foldlM_append]
      cases (glyphStores r penX penY mh g).foldlM execStore image with
      | none => rfl
      | some v =>
        refine ih _ _ v (wrap32_fits _) (wrap32_fits _) ?_
        intro k g' hk
        have := hfit (k + 1) g' (by simpa using hk)
        rw [List.take_succ_cons, sumAdvanceX_cons, sumAdvanceY_cons, ← add_assoc,
          ← add_assoc] at this
        rw [wrap32_add, wrap32_add]
        exact this

theorem mem_listStores32 (r : Renderer) (mh : Int) (gs : List FT_GlyphSlot) (penX penY : Int)
    (hx : Fits penX) (hy : Fits penY) (s : Store) :
    s ∈ listStores32 r mh gs penX penY ↔
      ∃ k g, gs[k]? = some g ∧
        s ∈ glyphStores r (wrap32 (penX + sumAdvanceX (gs.take k)))
          (wrap32 (penY + sumAdvanceY (gs.take k))) mh g := by
  induction gs generalizing penX penY with
  | nil => simp [listStores32]
  | cons g0 rest ih =>
    simp only [listStores32, List.mem_append, ih _ _ (wrap32_fits _) (wrap32_fits _)]
    constructor
    · rintro (h | ⟨k, g, hk, hs⟩)
      · refine ⟨0, g0, List.getElem?_cons_zero, ?_⟩
        simpa [sumAdvanceX, sumAdvanceY, wrap32_of_fits _ hx, wrap32_of_fits _ hy] using h
      · refine ⟨k + 1, g, by simpa using hk, ?_⟩
        rw [List.take_succ_cons, sumAdvanceX_cons, sumAdvanceY_cons, ← add_assoc, ← add_assoc]
        rw [wrap32_add, wrap32_add] at hs
        exact hs
    · rintro ⟨k, g, hk, hs⟩
      cases k with
      | zero =>
        left
        simp only [List.getElem?_cons_zero, Option.some.injEq] at hk
        subst hk
        simpa [sumAdvanceX, sumAdvanceY, wrap32_of_fits _ hx, wrap32_of_fits _ hy] using hs
      | succ k =>
        right
        refine ⟨k, g, by simpa using hk, ?_⟩
        rw [List.take_succ_cons, sumAdvanceX_cons, sumAdvanceY_cons, ← add_assoc,
          ← add_assoc] at hs
        rw [wrap32_add, wrap32_add]
        exact hs

/-- The workhorse at machine level: when the start position is representable and no `int`
computation overflows, the call returns, keeps the length, sets every index hit with the
`int` pen to 65535 and leaves every other element alone. -/
theorem draw32_spec (r : Renderer) (image : List Nat) (text : List Char) (startX startY : Int)
    (hlen : (image.length : Int) = r.width * r.height)
    (hx : Fits startX) (hy : Fits startY) (hno : NoOverflow r text startX startY) :
    ∃ image', drawTextOnImage32 r image text startX startY = some image' ∧
      image'.length = image.length ∧
      (∀ i : Nat, TextHits32 r text startX startY i →
        i < image.length ∧ image'[i]? = some 65535) ∧
      (∀ i : Nat, ¬ TextHits32 r text startX startY i → image'[i]? = image[i]?) := by
  have hmem : ∀ s, s ∈ listStores32 r (calculateTextHeight r text) (rendered r text)
      startX startY ↔ ∃ k g, (rendered r text)[k]? = some g ∧
        s ∈ glyphStores r (wrap32 (startX + sumAdvanceX ((rendered r text).take k)))
          (wrap32 (startY + sumAdvanceY ((rendered r text).take k)))
          (calculateTextHeight r text) g :=
    mem_listStores32 r _ _ startX startY hx hy
  have hhits : ∀ i : Nat,
      (∃ s ∈ listStores32 r (calculateTextHeight r text) (rendered r text) startX startY,
        s.coverage ≠ 0 ∧ s.index = (i : Int)) ↔ TextHits32 r text startX startY i := by
    intro i
    unfold TextHits32
    constructor
    · rintro ⟨s, hs, hc, hi⟩
      obtain ⟨k, g, hk, hg⟩ := (hmem s).mp hs
      exact ⟨k, g, hk, (glyphStores_hits _ _ _ _ g i).mp ⟨s, hg, hc, hi⟩⟩
    · rintro ⟨k, g, hk, hg⟩
      obtain ⟨s, hs, hc, hi⟩ := (glyphStores_hits _ _ _ _ g i).mpr hg
      exact ⟨s, (hmem s).mpr ⟨k, g, hk, hs⟩, hc, hi⟩
  obtain ⟨image', hrun, hl, hhit, hmiss⟩ :=
    exec_spec (listStores32 r (calculateTextHeight r text) (rendered r text) startX startY)
      image (by
        intro s hs
        rw [hlen]
        obtain ⟨k, g, _, hg⟩ := (hmem s).mp hs
        exact glyphStores_inRange _ _ _ _ g s hg)
  refine ⟨image', ?_, hl, ?_, ?_⟩
  · unfold drawTextOnImage32
    rw [drawLoop32_eq_exec r _ text startX startY image hx hy hno]
    exact hrun
  · intro i hi
    exact hhit i ((hhits i).mpr hi)
  · intro i hi
    exact hmiss i (fun h => hi ((hhits i).mp h))

theorem listStores32_eq_listStores (r : Renderer) (mh : Int) (gs : List FT_GlyphSlot)
    (penX penY : Int)
    (hpen : ∀ k, k ≤ gs.length →
      Fits (penX + sumAdvanceX (gs.take k)) ∧ Fits (penY + sumAdvanceY (gs.take k))) :
    listStores32 r mh gs penX penY = listStores r mh gs penX penY := by
  induction gs generalizing penX penY with
  | nil => rfl
  | cons g rest ih =>
    have h1 := hpen 1 (by simp)
    simp only [List.take_succ_cons, List.take_zero, sumAdvanceX, sumAdvanceY, List.map_cons,
      List.map_nil, List.sum_cons, List.sum_nil, add_zero] at h1
    simp only [listStores32, listStores]
    rw [wrap32_of_fits _ h1.1, wrap32_of_fits _ h1.2]
    congr 1
    apply ih
    intro k hk
    have := hpen (k + 1) (by simpa using hk)
    rw [List.take_succ_cons, sumAdvanceX_cons, sumAdvanceY_cons, ← add_assoc, ← add_assoc]
      at this
    exact this

/-- The two embeddings agree on every execution in which no `int` computation overflows and the
pen, as the start position plus the sum of the advances, stays representable in an `int`. -/
theorem drawTextOnImage32_eq_drawTextOnImage (r : Renderer) (image : List Nat)
    (text : List Char) (startX startY : Int) (hno : NoOverflow r text startX startY)
    (hpen : ∀ k, k ≤ (rendered r text).length →
      Fits (startX + sumAdvanceX ((rendered r text).take k)) ∧
        Fits (startY + sumAdvanceY ((rendered r text).take k))) :
    drawTextOnImage32 r image text startX startY = drawTextOnImage r image text startX startY := by
  have h0 := hpen 0 (Nat.zero_le _)
  simp only [List.take_zero, sumAdvanceX, sumAdvanceY, List.map_nil, List.sum_nil,
    add_zero] at h0
  unfold drawTextOnImage32 drawTextOnImage
  rw [drawLoop32_eq_exec r _ text startX startY image h0.1 h0.2 hno, drawLoop_eq_exec,
    loopStores_eq_listStores, listStores32_eq_listStores r _ _ startX startY hpen]

theorem textHits32_iff_textHits (r : Renderer) (text : List Char) (startX startY : Int)
    (hpen : ∀ k, k ≤ (rendered r text).length →
      Fits (startX + sumAdvanceX ((rendered r text).take k)) ∧
        Fits (startY + sumAdvanceY ((rendered r text).take k)))
    (i : Nat) : TextHits32 r text startX startY i ↔ TextHits r text startX startY i := by
  have hk : ∀ k g, (rendered r text)[k]? = some g → k ≤ (rendered r text).length := by
    intro k g h
    obtain ⟨hlt, _⟩ := List.getElem?_eq_some.mp h
    exact Nat.le_of_lt hlt
  unfold TextHits32 TextHits
  constructor
  · rintro ⟨k, g, h, hg⟩
    rw [wrap32_of_fits _ (hpen k (hk k g h)).1, wrap32_of_fits _ (hpen k (hk k g h)).2] at hg
    exact ⟨k, g, h, hg⟩
  · rintro ⟨k, g, h, hg⟩
    refine ⟨k, g, h, ?_⟩
    rw [wrap32_of_fits _ (hpen k (hk k g h)).1, wrap32_of_fits _ (hpen k (hk k g h)).2]
    exact hg

theorem noOverflow_demoWide : NoOverflow demoWide ['w', 'a'] 0 1 := by
  have hr : rendered demoWide ['w', 'a'] = [glyphWide, glyphBar] := rfl
  have hh : calculateTextHeight demoWide ['w', 'a'] = 0 := by decide
  intro k g hk
  rw [hr] at hk ⊢
  rw [hh]
  match k, hk with
  | 0, hk =>
    simp only [List.getElem?_cons_zero, Option.some.injEq] at hk
    subst hk
    refine ⟨by decide, by decide, ?_⟩
    intro row col hrow hcol
    have h1 : row = 0 := by simp only [glyphWide] at hrow; omega
    have h2 : col = 0 := by simp only [glyphWide] at hcol; omega
    subst h1 h2
    simp [CoordsFit, Fits, glyphWide, demoWide, wrap32, sumAdvanceX, sumAdvanceY]
  | 1, hk =>
    simp only [List.getElem?_cons_succ, List.getElem?_cons_zero, Option.some.injEq] at hk
    subst hk
    refine ⟨by decide, by decide, ?_⟩
    intro row col hrow hcol
    have h1 : row = 0 := by simp only [glyphBar] at hrow; omega
    have h2 : col = 0 ∨ col = 1 := by simp only [glyphBar] at hcol; omega
    have hp : wrap32 (0 + sumAdvanceX (List.take 1 [glyphWide, glyphBar])) = 1 := by decide
    have hq : wrap32 (1 + sumAdvanceY (List.take 1 [glyphWide, glyphBar])) = 1 := by decide
    rw [hp, hq]
    subst h1
    rcases h2 with rfl | rfl <;> simp [CoordsFit, Fits, glyphBar, demoWide]
  | k + 2, hk => simp at hk

/-! ## Claims settled at machine level -/

/-- C8 as stated fails.  On a 2x2 image the text `wa` is drawn at (0, 1); `w` advances the pen
by 2^32 + 1 whole pixels.  Line 78 stores the pen in an `int`, so `a` is drawn with the pen at
x = 1 and element 1 becomes 65535.  With the pen taken as the start position plus the sum of the
advances, as the claim has it, no bitmap pixel lands on index 1, so the claim leaves element 1
at its original value 0. -/
theorem pen_sum_as_stated_fails :
    drawTextOnImage32 demoWide [0, 0, 0, 0] ['w', 'a'] 0 1 = some [65535, 65535, 0, 0] ∧
      ¬ TextHits demoWide ['w', 'a'] 0 1 1 := by
  refine ⟨by decide, ?_⟩
  intro hhit
  obtain ⟨image', hrun, _, hset, _⟩ :=
    draw_spec demoWide [0, 0, 0, 0] ['w', 'a'] 0 1 (by decide)
  have hval : drawTextOnImage demoWide [0, 0, 0, 0] ['w', 'a'] 0 1 = some [65535, 0, 0, 0] := by
    decide
  rw [hval] at hrun
  have himg : image' = [65535, 0, 0, 0] := (Option.some.inj hrun).symm
  have h1 := (hset 1 hhit).2
  rw [himg] at h1
  exact absurd h1 (by decide)

/-- C8 amended: let the pen before the k-th successfully rasterized character be the `int`
congruent modulo 2^32 to the start position plus the sum of the whole-pixel advances
(`advance >> 6`, the floor of `advance / 64`) of the earlier successfully rasterized characters,
and let `maxAscent = calculateTextHeight text`.  On a buffer of `width * height` elements, with
a start position representable in an `int` and no `int` computation of lines 64-73 overflowing,
the call returns, keeps the length, and the final value at index `i` is 65535 when some
successfully rasterized character has a bitmap pixel of non-zero coverage whose target
`(x, flippedY)`, computed from that pen, is in bounds with `i = flippedY * width + x`; otherwise
it is the original value at `i`.  When every such sum is itself representable in an `int`, the
pen is the sum and the hit indices are those of the claim as stated. -/
theorem drawTextOnImage32_characterisation (r : Renderer) (image : List Nat)
    (text : List Char) (startX startY : Int)
    (hlen : (image.length : Int) = r.width * r.height)
    (hx : Fits startX) (hy : Fits startY) (hno : NoOverflow r text startX startY) :
    (∃ image', drawTextOnImage32 r image text startX startY = some image' ∧
      image'.length = image.length ∧
      ∀ i : Nat, i < image.length →
        (TextHits32 r text startX startY i → image'[i]? = some 65535) ∧
        (¬ TextHits32 r text startX startY i → image'[i]? = image[i]?)) ∧
    ((∀ k, k ≤ (rendered r text).length →
        Fits (startX + sumAdvanceX ((rendered r text).take k)) ∧
          Fits (startY + sumAdvanceY ((rendered r text).take k))) →
      ∀ i : Nat, TextHits32 r text startX startY i ↔ TextHits r text startX startY i) := by
  obtain ⟨image', hrun, hl, hhit, hmiss⟩ :=
    draw32_spec r image text startX startY hlen hx hy hno
  exact ⟨⟨image', hrun, hl, fun i _ => ⟨fun h => (hhit i h).2, hmiss i⟩⟩,
    fun hpen i => textHits32_iff_textHits r text startX startY hpen i⟩

/-- Witness for amended C8: the text `wa` drawn at (0, 1) on a 2x2 image; the pen of `a` is the
`int` 1, the value of 2^32 + 1 modulo 2^32. -/
theorem drawTextOnImage32_characterisation_witness :
    (∃ image', drawTextOnImage32 demoWide [0, 0, 0, 0] ['w', 'a'] 0 1 = some image' ∧
      image'.length = [0, 0, 0, 0].length ∧
      ∀ i : Nat, i < [0, 0, 0, 0].length →
        (TextHits32 demoWide ['w', 'a'] 0 1 i → image'[i]? = some 65535) ∧
        (¬ TextHits32 demoWide ['w', 'a'] 0 1 i → image'[i]? = [0, 0, 0, 0][i]?)) ∧
    ((∀ k, k ≤ (rendered demoWide ['w', 'a']).length →
        Fits (0 + sumAdvanceX ((rendered demoWide ['w', 'a']).take k)) ∧
          Fits (1 + sumAdvanceY ((rendered demoWide ['w', 'a']).take k))) →
      ∀ i : Nat, TextHits32 demoWide ['w', 'a'] 0 1 i ↔ TextHits demoWide ['w', 'a'] 0 1 i) :=
  drawTextOnImage32_characterisation demoWide [0, 0, 0, 0] ['w', 'a'] 0 1 (by decide)
    (by decide) (by decide) noOverflow_demoWide

/-- C2 at two failing inputs.  On a 50000x50000 image (a buffer of 2500000000 elements) the text
`a` drawn at (0, 0) targets x = 0, flipped_y = 49999 inside the image, but the index
`flipped_y * width + x = 2499950000` is not representable in an `int` (its 32-bit value is
negative): the behaviour is undefined and the store does not stay inside the vector.  On a 2x2
image with `startX = INT_MAX` the sum `penX + col` of line 66 overflows for `col = 1`. -/
theorem drawTextOnImage32_undefined_at_extremes :
    ((List.replicate 2500000000 0).length : Int) = demoBig.width * demoBig.height ∧
      drawTextOnImage32 demoBig (List.replicate 2500000000 0) ['a'] 0 0 = none ∧
      wrap32 (49999 * demoBig.width + 0) = -1795017296 ∧
      drawTextOnImage32 demo2 [0, 0, 0, 0] ['a'] 2147483647 1 = none := by
  refine ⟨?_, by decide, by decide, by decide⟩
  rw [List.length_replicate]
  decide

end TextRenderer
